import Mathlib

/-!
Verification of the `httpfromtcp` HTTP/1.1 implementation.

Byte streams are modelled as `List Char` (the repository only manipulates
ASCII bytes).  Go strings/byte slices become `List Char`; the `Headers` map
becomes an association list with map-style lookup/insert; fallible Go code
returns `Except String`/`Option`.  Error messages are modelled as fixed
strings (the Go originals interpolate offending data into the message; no
property here depends on message contents).
-/

instance {ε α : Type} [DecidableEq ε] [DecidableEq α] : DecidableEq (Except ε α)
  | .error a, .error b =>
    decidable_of_iff (a = b) ⟨by rintro rfl; rfl, fun h => by injection h⟩
  | .error _, .ok _ => isFalse (fun h => by injection h)
  | .ok _, .error _ => isFalse (fun h => by injection h)
  | .ok a, .ok b =>
    decidable_of_iff (a = b) ⟨by rintro rfl; rfl, fun h => by injection h⟩

namespace HttpFromTcp

/-- The characters `strings.TrimSpace` trims (`unicode.IsSpace`, restricted to
the code points that fit one byte: TAB, LF, VT, FF, CR, SP, NEL, NBSP). -/
def isSpaceGo (c : Char) : Bool :=
  c = ' ' || c = Char.ofNat 9 || c = Char.ofNat 10 || c = Char.ofNat 11 ||
  c = Char.ofNat 12 || c = Char.ofNat 13 || c = Char.ofNat 0x85 || c = Char.ofNat 0xA0

/-- `strings.TrimSpace`: drop whitespace from both ends. -/
def trimSpace (s : List Char) : List Char :=
  ((s.dropWhile isSpaceGo).reverse.dropWhile isSpaceGo).reverse

/-- ASCII lowercasing of one character (`strings.ToLower` on the inputs the
repository deals with). -/
def charToLower (c : Char) : Char :=
  if 'A' ≤ c ∧ c ≤ 'Z' then Char.ofNat (c.toNat + 32) else c

/-- `strings.ToLower` character-wise. -/
def toLowerChars (s : List Char) : List Char :=
  s.map charToLower

/-- Index of the first occurrence of character `t` (Go `strings.IndexByte`). -/
def charIdx (t : Char) : List Char → Option Nat
  | [] => none
  | c :: cs => if c = t then some 0 else (charIdx t cs).map (· + 1)

/-- Index of the first occurrence of CRLF (`bytes.Index(data, "\r\n")`). -/
def crlfIdx : List Char → Option Nat
  | [] => none
  | [_] => none
  | c :: c' :: cs =>
    if c = Char.ofNat 13 ∧ c' = Char.ofNat 10 then some 0
    else (crlfIdx (c' :: cs)).map (· + 1)

/-- Split at the first occurrence of `sep`, if any. -/
def splitFirst (sep : Char) : List Char → Option (List Char × List Char)
  | [] => none
  | c :: cs =>
    if c = sep then some ([], cs)
    else (splitFirst sep cs).map (fun p => (c :: p.1, p.2))

/-- Go `strings.SplitN(s, sep, n)` for `n > 0` and a one-character separator. -/
def splitN (sep : Char) : Nat → List Char → List (List Char)
  | 0, _ => []
  | 1, s => [s]
  | n + 2, s =>
    match splitFirst sep s with
    | none => [s]
    | some (pre, post) => pre :: splitN sep (n + 1) post

/-- Go `strings.HasPrefix`. -/
def hasPre : List Char → List Char → Bool
  | [], _ => true
  | _ :: _, [] => false
  | p :: ps, c :: cs => p = c && hasPre ps cs

/-- Go `strings.TrimPrefix` (and the repeated idiom
`if HasPrefix(s, p) { s = TrimPrefix(s, p) }`). -/
def stripPre (p s : List Char) : List Char :=
  if hasPre p s then s.drop p.length else s

/-- Digit accumulator underlying `strconv.Atoi`. -/
def digitsValAux : List Char → Nat → Option Nat
  | [], acc => some acc
  | c :: cs, acc =>
    if '0' ≤ c ∧ c ≤ '9' then digitsValAux cs (acc * 10 + (c.toNat - 48))
    else none

/-- Go `strconv.Atoi`: optional sign, then one or more decimal digits,
nothing else.  (Machine-integer overflow is not modelled; the repository
only feeds it short header values.) -/
def atoiChars (s : List Char) : Option Int :=
  match s with
  | [] => none
  | c :: cs =>
    if c = '+' then
      match cs with
      | [] => none
      | _ => (digitsValAux cs 0).map (fun n => (n : Int))
    else if c = '-' then
      match cs with
      | [] => none
      | _ => (digitsValAux cs 0).map (fun n => -(n : Int))
    else
      (digitsValAux s 0).map (fun n => (n : Int))

/-- The header-name whitelist from `Headers.Parse`:
upper/lower letters, digits, or one of ``!#$%&'*+-.^_|~` ``. -/
def tokenChar (c : Char) : Bool :=
  ('A' ≤ c && c ≤ 'Z') || ('a' ≤ c && c ≤ 'z') || ('0' ≤ c && c ≤ '9') ||
  [ '!', '#', '$', '%', '&', Char.ofNat 39, '*', '+', '-', '.', '^', '_', '|', '~',
    Char.ofNat 96 ].contains c

/-- The `Headers` map (`map[string]string`), as an association list with
map-style lookup and insertion. -/
def Headers := List (List Char × List Char)

instance : DecidableEq Headers := by
  unfold Headers; infer_instance

/-- Map lookup. -/
def getKey : Headers → List Char → Option (List Char)
  | [], _ => none
  | (k', v') :: t, k => if k' = k then some v' else getKey t k

/-- Map insertion / in-place update (`h[key] = value`). -/
def setKey : Headers → List Char → List Char → Headers
  | [], k, v => [(k, v)]
  | (k', v') :: t, k, v => if k' = k then (k, v) :: t else (k', v') :: setKey t k v

/-- Result of one `Headers.Parse` call: `(n, done, err)` plus the updated map
(Go mutates the receiver). -/
structure HPResult where
  consumed : Nat
  isDone : Bool
  err : Option String
  headers : Headers
deriving DecidableEq

/-- `Headers.Parse` (the snapshot with lowercase normalization, duplicate
combining and the character whitelist). -/
def Headers.Parse (h : Headers) (data : List Char) : HPResult :=
  match crlfIdx data with
  | none => ⟨0, false, none, h⟩
  | some idx =>
    if idx = 0 then ⟨2, true, none, h⟩
    else
      let line := data.take idx
      match charIdx ':' line with
      | none => ⟨0, false, some "malformed header (no colon)", h⟩
      | some ci =>
        let keyRaw := line.take ci
        let valRaw := line.drop (ci + 1)
        if trimSpace keyRaw ≠ keyRaw then
          ⟨0, false, some "invalid header key spacing", h⟩
        else if keyRaw.contains ' ' then
          ⟨0, false, some "invalid header key contains space", h⟩
        else
          let value := trimSpace valRaw
          if keyRaw.all tokenChar then
            let key := toLowerChars keyRaw
            let h' :=
              match getKey h key with
              | some prev =>
                if prev ≠ [] then setKey h key (prev ++ [',', ' '] ++ value)
                else setKey h key value
              | none => setKey h key value
            ⟨idx + 2, false, none, h'⟩
          else
            ⟨0, false, some "invalid character in header key", h⟩

/-- `NewHeaders`. -/
def NewHeaders : Headers := []

/-- Modelled from the spec: `Headers.Get` is called by the request parser's
body state (`r.Headers.Get("Content-Length")`) but its definition is absent
from the sources.  Per spec §3 the table maps lowercase names, so `Get`
lowercases its key and returns the stored value, or the empty string when
the key is absent (the caller compares the result against `""`). -/
def Headers.Get (h : Headers) (key : List Char) : List Char :=
  (getKey h (toLowerChars key)).getD []

/-- The parsed request line (`RequestLine`). -/
structure RequestLine where
  httpVersion : List Char
  requestTarget : List Char
  method : List Char
deriving DecidableEq

/-- `requestLineFromString`: validate a CRLF-free request line and build a
`RequestLine`. -/
def requestLineFromString (line : List Char) : Except String RequestLine :=
  if line = [] then .error "empty request"
  else
    match splitN ' ' 3 line with
    | [m, t, v] =>
      if m.all (fun ch => 'A' ≤ ch && ch ≤ 'Z') then
        if hasPre ['/'] t then
          let httpVersion := stripPre ("HTTP/".data) v
          if httpVersion = "1.1".data then
            .ok ⟨httpVersion, t, m⟩
          else .error "unsupported HTTP version in request line"
        else .error "invalid request target in request line"
      else .error "invalid method in request line"
    | _ => .error "malformed request line"

/-- `parseRequestLine`: look for a CRLF-terminated request line; `none` means
more data is required, otherwise the line is validated and the consumed byte
count (line plus CRLF) returned. -/
def parseRequestLine (input : List Char) : Except String (Option (RequestLine × Nat)) :=
  match crlfIdx input with
  | none => .ok none
  | some idx =>
    match requestLineFromString (input.take idx) with
    | .error e => .error e
    | .ok rl => .ok (some (rl, idx + 2))

/-- `ParserState` (the four-state snapshot). -/
inductive ParserState where
  | initialized
  | parsingHeaders
  | parsingBody
  | done
deriving DecidableEq

/-- The `Request` under construction. -/
structure Request where
  requestLine : RequestLine
  state : ParserState
  headers : Headers
  body : List Char
deriving DecidableEq

/-- `&Request{state: ParserInitialized}`: the zero-valued request the reader
loop starts from. -/
def initialRequest : Request :=
  ⟨⟨[], [], []⟩, .initialized, [], []⟩

/-- Outcome of a Go call in this repository: a normal return, an error
return, or a run-time panic.  Nothing in the sources installs a `recover`,
so a panic crashes the process; it must therefore be kept distinct from an
error value handed back to the caller. -/
inductive GoResult (α : Type) where
  | ok : α → GoResult α
  | error : String → GoResult α
  | panic : String → GoResult α
deriving DecidableEq

/-- `(*Request).parse`: consume bytes from `data`, returning the number of
bytes consumed and the updated request; `(0, r)` with no error means more
data is required.  The body state reproduces Go's
`if r.Body == nil { r.Body = make([]byte, 0, contentLength) }`: the `make`
panics at run time when `contentLength` is negative
(`makeslice: cap out of range`); for a non-negative capacity it has no
observable effect on the byte-list model.  `Body == nil` is modelled as
`r.body = []`, since a non-nil empty `Body` can only exist after a
successful allocation, which requires this same branch to have previously
run with a non-negative `contentLength`. -/
def Request.parse (r : Request) (data : List Char) : GoResult (Nat × Request) :=
  match r.state with
  | .initialized =>
    match parseRequestLine data with
    | .error e => .error e
    | .ok none => .ok (0, r)
    | .ok (some (rl, consumed)) =>
      .ok (consumed, { r with requestLine := rl, headers := NewHeaders,
                              state := .parsingHeaders })
  | .parsingHeaders =>
    let res := r.headers.Parse data
    match res.err with
    | some e => .error e
    | none =>
      if res.isDone then
        .ok (res.consumed, { r with headers := res.headers, state := .parsingBody })
      else
        .ok (res.consumed, { r with headers := res.headers })
  | .parsingBody =>
    let headerVal := r.headers.Get ("Content-Length".data)
    if headerVal = [] then
      .ok (data.length, { r with state := .done })
    else
      match atoiChars headerVal with
      | none => .error "invalid Content-Length"
      | some contentLength =>
        if contentLength = 0 then
          .ok (data.length, { r with state := .done })
        else
          if r.body = [] ∧ contentLength < 0 then
            .panic "makeslice: cap out of range"
          else
            let body' := r.body ++ data
            if (body'.length : Int) > contentLength then
              .error "body length exceeds Content-Length"
            else
              .ok (data.length,
                { r with body := body',
                         state := if (body'.length : Int) = contentLength then .done
                                  else .parsingBody })
  | .done => .ok (0, r)

/-- Feed a sequence of byte chunks through `parse`, stopping at the first
error or panic (each call gets the next chunk; used to state the
state-machine invariants over any sequence of parse calls). -/
def parseMany (r : Request) : List (List Char) → GoResult Request
  | [] => .ok r
  | d :: ds =>
    match r.parse d with
    | .error e => .error e
    | .panic p => .panic p
    | .ok (_, r') => parseMany r' ds

/-- Position of a state in the `Initialized → ParsingHeaders → ParsingBody →
Done` order. -/
def stateIdx : ParserState → Nat
  | .initialized => 0
  | .parsingHeaders => 1
  | .parsingBody => 2
  | .done => 3

/-- The `RequestFromReader` loop.  One recursion step is one loop iteration:
check for `Done`, try to parse the buffered bytes, on progress shift the
consumed bytes out, otherwise read more bytes from the source (delivery
sizes are taken from `sched`, clamped to be non-empty — Go's growable buffer
only caps how many bytes one `Read` may deliver, which the schedule models),
and at end-of-stream make one final parse attempt and accept only a `Done`
parser.  `fuel` bounds the number of iterations; every iteration either
consumes a buffered byte or reads a source byte, so
`buf.length + 2 * source.length + 1` iterations always suffice and the
"fuel exhausted" branch is unreachable from `RequestFromReader`. -/
def runF : Nat → Request → List Char → List Char → List Nat → GoResult Request
  | 0, _, _, _, _ => .error "fuel exhausted"
  | fuel + 1, req, buf, source, sched =>
    if req.state = ParserState.done then .ok req
    else
      match req.parse buf with
      | .error e => .error e
      | .panic p => .panic p
      | .ok (c, req') =>
        if 0 < c then runF fuel req' (buf.drop c) source sched
        else
          match source with
          | [] =>
            match req'.parse buf with
            | .error e => .error e
            | .panic p => .panic p
            | .ok (_, req2) =>
              if req2.state = ParserState.done then .ok req2
              else .error "incomplete request after EOF: need more data"
          | ch :: cs =>
            let n := max 1 (min (sched.headD (ch :: cs).length) (ch :: cs).length)
            runF fuel req' (buf ++ (ch :: cs).take n) ((ch :: cs).drop n) sched.tail

/-- `RequestFromReader`: run the loop from the initial request on a source
holding `data`, delivered in fragments described by `sched`. -/
def RequestFromReader (data : List Char) (sched : List Nat) : GoResult Request :=
  runF (2 * data.length + 2) initialRequest [] data sched

/-- The loop's behaviour once the source is exhausted and everything is
buffered: parse until no progress, then the EOF final-attempt check. -/
def finishBuf (req : Request) (buf : List Char) : GoResult Request :=
  runF (buf.length + 2) req buf [] []

/-- `WriteStatusLine`'s reason-phrase table. -/
def statusReason (code : Int) : List Char :=
  if code = 200 then "OK".data
  else if code = 400 then "Bad Request".data
  else if code = 500 then "Internal Server Error".data
  else if code = 408 then "Request Timeout".data
  else []

/-- Decimal rendering of the status code (`fmt.Fprintf` `%d`). -/
def intChars (i : Int) : List Char :=
  if i < 0 then '-' :: Nat.toDigits 10 (-i).toNat else Nat.toDigits 10 i.toNat

/-- `WriteStatusLine`: the bytes emitted onto the sink. -/
def WriteStatusLine (code : Int) : List Char :=
  let reason := statusReason code
  if reason = [] then "HTTP/1.1 ".data ++ intChars code ++ " \r\n".data
  else "HTTP/1.1 ".data ++ intChars code ++ [' '] ++ reason ++ "\r\n".data

/-! ### Basic lemmas about the scanning helpers -/

theorem crlfIdx_le : ∀ {d : List Char} {i : Nat}, crlfIdx d = some i → i + 2 ≤ d.length := by
  intro d
  induction d with
  | nil => intro i h; simp [crlfIdx] at h
  | cons c cs ih =>
    intro i h
    match cs with
    | [] => simp [crlfIdx] at h
    | c' :: cs' =>
      rw [crlfIdx] at h
      split at h
      · cases h; simp
      · rcases Option.map_eq_some'.mp h with ⟨j, hj, rfl⟩
        have := ih hj
        simp at this ⊢
        omega

theorem crlfIdx_append {d : List Char} {i : Nat} (rest : List Char)
    (h : crlfIdx d = some i) : crlfIdx (d ++ rest) = some i := by
  induction d generalizing i with
  | nil => simp [crlfIdx] at h
  | cons c cs ih =>
    match cs with
    | [] => simp [crlfIdx] at h
    | c' :: cs' =>
      rw [crlfIdx] at h
      rw [List.cons_append, List.cons_append, crlfIdx]
      split at h
      · cases h; rw [if_pos ‹_›]
      · rw [if_neg ‹_›]
        rcases Option.map_eq_some'.mp h with ⟨j, hj, rfl⟩
        have := ih hj
        rw [List.cons_append] at this
        rw [this]
        rfl

theorem HeadersParse_le (h : Headers) (d : List Char) :
    (Headers.Parse h d).consumed ≤ d.length := by
  unfold Headers.Parse
  cases hc : crlfIdx d with
  | none => simp
  | some idx =>
    have hle := crlfIdx_le hc
    dsimp only
    by_cases h0 : idx = 0
    · rw [if_pos h0]
      show 2 ≤ d.length
      omega
    · rw [if_neg h0]
      cases hci : charIdx ':' (d.take idx) with
      | none => simp
      | some ci =>
        dsimp only
        repeat' split
        all_goals simp
        all_goals omega

theorem HeadersParse_append (h : Headers) {d : List Char} {idx : Nat} (rest : List Char)
    (hc : crlfIdx d = some idx) : Headers.Parse h (d ++ rest) = Headers.Parse h d := by
  have hle := crlfIdx_le hc
  unfold Headers.Parse
  rw [hc, crlfIdx_append rest hc]
  dsimp only
  rw [List.take_append_of_le_length (by omega)]

/-! ### Lemmas about one `parse` step -/

theorem parse_init {r : Request} (hs : r.state = .initialized) (d : List Char) :
    r.parse d =
      match parseRequestLine d with
      | .error e => .error e
      | .ok none => .ok (0, r)
      | .ok (some (rl, consumed)) =>
        .ok (consumed, { r with requestLine := rl, headers := NewHeaders,
                                state := .parsingHeaders }) := by
  unfold Request.parse
  rw [hs]

theorem parse_ph {r : Request} (hs : r.state = .parsingHeaders) (d : List Char) :
    r.parse d =
      (match (r.headers.Parse d).err with
       | some e => .error e
       | none =>
         if (r.headers.Parse d).isDone then
           .ok ((r.headers.Parse d).consumed,
             { r with headers := (r.headers.Parse d).headers, state := .parsingBody })
         else
           .ok ((r.headers.Parse d).consumed,
             { r with headers := (r.headers.Parse d).headers })) := by
  unfold Request.parse
  rw [hs]

theorem parse_pb {r : Request} (hs : r.state = .parsingBody) (d : List Char) :
    r.parse d =
      (if r.headers.Get ("Content-Length".data) = [] then
        .ok (d.length, { r with state := .done })
      else
        match atoiChars (r.headers.Get ("Content-Length".data)) with
        | none => .error "invalid Content-Length"
        | some contentLength =>
          if contentLength = 0 then
            .ok (d.length, { r with state := .done })
          else
            if r.body = [] ∧ contentLength < 0 then
              .panic "makeslice: cap out of range"
            else
              if ((r.body ++ d).length : Int) > contentLength then
                .error "body length exceeds Content-Length"
              else
                .ok (d.length,
                  { r with body := r.body ++ d,
                           state := if ((r.body ++ d).length : Int) = contentLength then .done
                                    else .parsingBody })) := by
  unfold Request.parse
  rw [hs]

theorem parse_done_eq {r : Request} (hs : r.state = .done) (d : List Char) :
    r.parse d = .ok (0, r) := by
  unfold Request.parse
  rw [hs]

theorem parse_le {r : Request} {d : List Char} {n : Nat} {r' : Request}
    (h : r.parse d = .ok (n, r')) : n ≤ d.length := by
  cases hs : r.state
  · rw [parse_init hs] at h
    unfold parseRequestLine at h
    cases hc : crlfIdx d with
    | none => rw [hc] at h; dsimp only at h; cases h; omega
    | some idx =>
      rw [hc] at h
      dsimp only at h
      have := crlfIdx_le hc
      cases hr : requestLineFromString (d.take idx) <;> rw [hr] at h <;> dsimp only at h
      · cases h
      · cases h; omega
  · rw [parse_ph hs] at h
    have := HeadersParse_le r.headers d
    cases he : (r.headers.Parse d).err <;> rw [he] at h <;> dsimp only at h
    · split at h <;> (cases h; omega)
    · cases h
  · rw [parse_pb hs] at h
    split at h
    · cases h; omega
    · cases ha : atoiChars (r.headers.Get ("Content-Length".data)) <;> rw [ha] at h <;>
        dsimp only at h
      · cases h
      · split at h
        · cases h; omega
        · split at h
          · cases h
          · split at h
            · cases h
            · cases h; omega
  · rw [parse_done_eq hs] at h
    cases h; omega

theorem parse_err_ext {r : Request} {d : List Char} {e : String} (rest : List Char)
    (h : r.parse d = .error e) : r.parse (d ++ rest) = .error e := by
  cases hs : r.state
  · rw [parse_init hs] at h ⊢
    unfold parseRequestLine at h ⊢
    cases hc : crlfIdx d with
    | none => rw [hc] at h; dsimp only at h; cases h
    | some idx =>
      rw [hc] at h
      dsimp only at h
      rw [crlfIdx_append rest hc]
      dsimp only
      rw [List.take_append_of_le_length (by have := crlfIdx_le hc; omega)]
      cases hr : requestLineFromString (d.take idx) <;> rw [hr] at h <;> dsimp only at h ⊢
      · exact h
      · cases h
  · rw [parse_ph hs] at h ⊢
    cases hc : crlfIdx d with
    | none =>
      exfalso
      unfold Headers.Parse at h
      rw [hc] at h
      simp at h
    | some idx =>
      rw [HeadersParse_append r.headers rest hc]
      exact h
  · rw [parse_pb hs] at h ⊢
    split at h
    · cases h
    · rw [if_neg ‹_›]
      cases ha : atoiChars (r.headers.Get ("Content-Length".data)) <;> rw [ha] at h <;>
        dsimp only at h ⊢
      · exact h
      · split at h
        · cases h
        · rw [if_neg ‹_›]
          split at h
          case isTrue hguard => cases h
          case isFalse hguard =>
            rw [if_neg hguard]
            split at h
            case isTrue hover =>
              cases h
              rw [if_pos (by simp at hover ⊢; omega)]
            case isFalse hover =>
              split at h <;> cases h
  · rw [parse_done_eq hs] at h
    cases h

theorem parse_panic_ext {r : Request} {d : List Char} {p : String} (rest : List Char)
    (h : r.parse d = .panic p) : r.parse (d ++ rest) = .panic p := by
  cases hs : r.state
  · rw [parse_init hs] at h ⊢
    unfold parseRequestLine at h ⊢
    cases hc : crlfIdx d with
    | none => rw [hc] at h; dsimp only at h; cases h
    | some idx =>
      rw [hc] at h
      dsimp only at h
      cases hr : requestLineFromString (d.take idx) <;> rw [hr] at h <;> dsimp only at h
      · cases h
      · cases h
  · rw [parse_ph hs] at h
    cases he : (r.headers.Parse d).err <;> rw [he] at h <;> dsimp only at h
    · split at h <;> cases h
    · cases h
  · rw [parse_pb hs] at h ⊢
    split at h
    · cases h
    · rw [if_neg ‹_›]
      cases ha : atoiChars (r.headers.Get ("Content-Length".data)) <;> rw [ha] at h <;>
        dsimp only at h ⊢
      · cases h
      · split at h
        · cases h
        · rw [if_neg ‹_›]
          split at h
          case isTrue hguard =>
            cases h
            rw [if_pos hguard]
          case isFalse hguard =>
            split at h <;> cases h
  · rw [parse_done_eq hs] at h
    cases h

theorem parse_ext {r : Request} {d : List Char} {c : Nat} {r' : Request} (rest : List Char)
    (hs : r.state ≠ .parsingBody) (h : r.parse d = .ok (c, r')) (hc : 0 < c) :
    r.parse (d ++ rest) = .ok (c, r') := by
  cases hst : r.state
  · rw [parse_init hst] at h ⊢
    unfold parseRequestLine at h ⊢
    cases hcr : crlfIdx d with
    | none => rw [hcr] at h; dsimp only at h; cases h; omega
    | some idx =>
      rw [hcr] at h
      dsimp only at h
      rw [crlfIdx_append rest hcr]
      dsimp only
      rw [List.take_append_of_le_length (by have := crlfIdx_le hcr; omega)]
      cases hr : requestLineFromString (d.take idx) <;> rw [hr] at h <;> dsimp only at h ⊢
      · cases h
      · exact h
  · rw [parse_ph hst] at h ⊢
    cases hcr : crlfIdx d with
    | none =>
      exfalso
      have : r.headers.Parse d = ⟨0, false, none, r.headers⟩ := by
        unfold Headers.Parse
        rw [hcr]
      rw [this] at h
      simp at h
      omega
    | some idx =>
      rw [HeadersParse_append r.headers rest hcr]
      exact h
  · exact absurd hst hs
  · rw [parse_done_eq hst] at h
    cases h; omega

theorem HeadersParse_zero {h : Headers} {d : List Char}
    (hcons : (Headers.Parse h d).consumed = 0) (herr : (Headers.Parse h d).err = none) :
    Headers.Parse h d = ⟨0, false, none, h⟩ := by
  unfold Headers.Parse at hcons herr ⊢
  cases hc : crlfIdx d with
  | none => rfl
  | some idx =>
    rw [hc] at hcons herr
    dsimp only at hcons herr ⊢
    by_cases h0 : idx = 0
    · rw [if_pos h0] at hcons
      exact absurd hcons (by simp)
    · rw [if_neg h0] at hcons herr ⊢
      cases hci : charIdx ':' (d.take idx) <;> rw [hci] at hcons herr <;> dsimp only at hcons herr
      · exact absurd herr (by simp)
      · split at hcons <;> simp_all
        all_goals (split at hcons <;> simp_all)
        all_goals (split at hcons <;> simp_all)

/-! ### The reader loop: fuel irrelevance and one-step unfolding -/

theorem runF_fuel : ∀ (f : Nat) {g : Nat} {req : Request} {buf source : List Char}
    {sched : List Nat}, buf.length + 2 * source.length < f →
    buf.length + 2 * source.length < g →
    runF f req buf source sched = runF g req buf source sched := by
  intro f
  induction f with
  | zero => intro g req buf source sched hf hg; omega
  | succ f ih =>
    intro g req buf source sched hf hg
    match g, hg with
    | g + 1, hg =>
      rw [runF, runF]
      by_cases hd : req.state = ParserState.done
      · rw [if_pos hd, if_pos hd]
      · rw [if_neg hd, if_neg hd]
        cases hp : req.parse buf with
        | error e => rfl
        | panic p => rfl
        | ok p =>
          obtain ⟨c, req'⟩ := p
          dsimp only
          by_cases hc : 0 < c
          · rw [if_pos hc, if_pos hc]
            have hle := parse_le hp
            exact ih (by rw [List.length_drop]; omega) (by rw [List.length_drop]; omega)
          · rw [if_neg hc, if_neg hc]
            cases source with
            | nil => rfl
            | cons ch cs =>
              dsimp only
              have hn1 : 1 ≤ max 1 (min ((sched.headD (ch :: cs).length)) (ch :: cs).length) :=
                le_max_left _ _
              have hn2 : max 1 (min ((sched.headD (ch :: cs).length)) (ch :: cs).length) ≤
                  (ch :: cs).length :=
                max_le (by simp) (min_le_right _ _)
              apply ih <;>
                simp only [List.length_append, List.length_take, List.length_drop] <;> omega

theorem finishBuf_eq (req : Request) (buf : List Char) :
    finishBuf req buf =
      (if req.state = ParserState.done then .ok req
      else
        match req.parse buf with
        | .error e => .error e
        | .panic p => .panic p
        | .ok (c, req') =>
          if 0 < c then finishBuf req' (buf.drop c)
          else
            match req'.parse buf with
            | .error e => .error e
            | .panic p => .panic p
            | .ok (_, req2) =>
              if req2.state = ParserState.done then .ok req2
              else .error "incomplete request after EOF: need more data") := by
  show runF ((buf.length + 1) + 1) req buf [] [] = _
  rw [runF]
  by_cases hd : req.state = ParserState.done
  · rw [if_pos hd, if_pos hd]
  · rw [if_neg hd, if_neg hd]
    cases hp : req.parse buf with
    | error e => rfl
    | panic p => rfl
    | ok p =>
      obtain ⟨c, req'⟩ := p
      dsimp only
      by_cases hc : 0 < c
      · rw [if_pos hc, if_pos hc]
        have hle := parse_le hp
        unfold finishBuf
        exact runF_fuel _
          (by simp only [List.length_nil, List.length_drop]; omega)
          (by simp only [List.length_nil, List.length_drop]; omega)
      · rw [if_neg hc, if_neg hc]

theorem parseRequestLine_pos {d : List Char} {rl : RequestLine} {consumed : Nat}
    (h : parseRequestLine d = .ok (some (rl, consumed))) : 2 ≤ consumed := by
  unfold parseRequestLine at h
  cases hc : crlfIdx d <;> rw [hc] at h <;> dsimp only at h
  · cases h
  case some idx =>
    cases hr : requestLineFromString (d.take idx) <;> rw [hr] at h <;> dsimp only at h
    · cases h
    · cases h; omega

theorem HeadersParse_done_two {h : Headers} {d : List Char}
    (hd : (Headers.Parse h d).isDone = true) : Headers.Parse h d = ⟨2, true, none, h⟩ := by
  unfold Headers.Parse at hd ⊢
  cases hc : crlfIdx d <;> rw [hc] at hd <;> dsimp only at hd ⊢
  · cases hd
  case some idx =>
    by_cases h0 : idx = 0
    · rw [if_pos h0]
    · rw [if_neg h0] at hd ⊢
      cases hci : charIdx ':' (d.take idx) <;> rw [hci] at hd <;> dsimp only at hd
      · cases hd
      · split at hd <;> simp_all
        all_goals (split at hd <;> simp_all)
        all_goals (split at hd <;> simp_all)

theorem finishBuf_done {q : Request} (hq : q.state = .done) (buf : List Char) :
    finishBuf q buf = .ok q := by
  rw [finishBuf_eq, if_pos hq]

/-- If every `parse` call in the current state consumes everything and goes to
`Done` (the body state with no declared body), then the fully-buffered run
ends in that `Done` request. -/
theorem finish_trivial {r res : Request} {rest : List Char} (hs : r.state = .parsingBody)
    (htriv : ∀ dd : List Char, r.parse dd = .ok (dd.length, { r with state := .done }))
    (hfb : finishBuf r rest = .ok res) : res = { r with state := .done } := by
  rw [finishBuf_eq, if_neg (by simp [hs]), htriv rest] at hfb
  dsimp only at hfb
  by_cases hr0 : 0 < rest.length
  · rw [if_pos hr0, List.drop_length, finishBuf_done rfl] at hfb
    cases hfb; rfl
  · rw [if_neg hr0] at hfb
    have hnil : rest = [] := by
      cases rest with
      | nil => rfl
      | cons a b => simp at hr0
    subst hnil
    rw [parse_done_eq rfl] at hfb
    dsimp only at hfb
    rw [if_pos rfl] at hfb
    cases hfb; rfl

/-- A `parse` step that consumed nothing commutes with the fully-buffered run:
the request it returns (normally unchanged; in the body state possibly pushed
to `Done`) finishes to the same result. -/
theorem runStep0 {r r' res : Request} {d rest : List Char}
    (hp : r.parse d = .ok (0, r'))
    (hfb : finishBuf r (d ++ rest) = .ok res) :
    finishBuf r' (d ++ rest) = .ok res := by
  obtain ⟨rl, st, hh, bb⟩ := r
  cases hs : st
  case initialized =>
    subst hs
    rw [parse_init rfl] at hp
    cases hq : parseRequestLine d <;> rw [hq] at hp <;> dsimp only at hp
    · cases hp
    case ok v =>
      cases v with
      | none => cases hp; exact hfb
      | some p =>
        obtain ⟨rl', consumed⟩ := p
        dsimp only at hp
        have := parseRequestLine_pos hq
        simp only [GoResult.ok.injEq, Prod.mk.injEq] at hp
        obtain ⟨h1, h2⟩ := hp
        omega
  case parsingHeaders =>
    subst hs
    rw [parse_ph rfl] at hp
    cases he : (Headers.Parse hh d).err <;> rw [he] at hp <;> dsimp only at hp
    case none =>
      by_cases hdone : (Headers.Parse hh d).isDone
      · rw [if_pos hdone] at hp
        have h2 := HeadersParse_done_two hdone
        simp only [GoResult.ok.injEq, Prod.mk.injEq] at hp
        obtain ⟨h3, h4⟩ := hp
        rw [h2] at h3
        simp at h3
      · rw [if_neg hdone] at hp
        simp only [GoResult.ok.injEq, Prod.mk.injEq] at hp
        obtain ⟨hc0, hr'⟩ := hp
        have hz := HeadersParse_zero (by omega) he
        rw [hz] at hr'
        rw [← hr']
        exact hfb
    case some => cases hp
  case parsingBody =>
    subst hs
    by_cases hv : Headers.Get hh ("Content-Length".data) = []
    · -- no Content-Length: parse jumps to Done consuming everything
      have htriv : ∀ dd : List Char,
          Request.parse ⟨rl, .parsingBody, hh, bb⟩ dd =
            .ok (dd.length, ⟨rl, .done, hh, bb⟩) := by
        intro dd
        rw [parse_pb rfl, if_pos hv]
      rw [htriv d] at hp
      simp only [GoResult.ok.injEq, Prod.mk.injEq] at hp
      obtain ⟨hd0, hr'⟩ := hp
      have hdnil : d = [] := List.length_eq_zero.mp hd0
      subst hdnil
      simp only [List.nil_append] at hfb ⊢
      have := finish_trivial rfl htriv hfb
      rw [← hr', this, finishBuf_done rfl]
    · rw [parse_pb rfl, if_neg hv] at hp
      cases ha : atoiChars (Headers.Get hh ("Content-Length".data)) with
      | none => rw [ha] at hp; dsimp only at hp; cases hp
      | some N =>
        rw [ha] at hp
        dsimp only at hp
        by_cases hN : N = 0
        · rw [if_pos hN] at hp
          have htriv : ∀ dd : List Char,
              Request.parse ⟨rl, .parsingBody, hh, bb⟩ dd =
                .ok (dd.length, ⟨rl, .done, hh, bb⟩) := by
            intro dd
            rw [parse_pb rfl, if_neg hv, ha]
            dsimp only
            rw [if_pos hN]
          simp only [GoResult.ok.injEq, Prod.mk.injEq] at hp
          obtain ⟨hd0, hr'⟩ := hp
          have hdnil : d = [] := List.length_eq_zero.mp hd0
          subst hdnil
          simp only [List.nil_append] at hfb ⊢
          have := finish_trivial rfl htriv hfb
          rw [← hr', this, finishBuf_done rfl]
        · rw [if_neg hN] at hp
          split at hp
          · cases hp
          · rename_i hguard
            split at hp
            · cases hp
            · rename_i hover
              simp only [GoResult.ok.injEq, Prod.mk.injEq] at hp
              obtain ⟨hd0, hr'⟩ := hp
              have hdnil : d = [] := List.length_eq_zero.mp hd0
              subst hdnil
              simp only [List.append_nil] at hover hr' ⊢
              simp only [List.nil_append] at hfb ⊢
              by_cases hbe : (bb.length : Int) = N
              · -- body already complete: the step went to Done
                rw [if_pos hbe] at hr'
                rw [finishBuf_eq, if_neg (by simp), parse_pb rfl, if_neg hv, ha] at hfb
                dsimp only at hfb
                rw [if_neg hN, if_neg hguard] at hfb
                cases rest with
                | nil =>
                  rw [List.append_nil] at hfb
                  rw [if_neg (show ¬((bb.length : Int) > N) from by omega)] at hfb
                  dsimp only at hfb
                  rw [if_pos hbe] at hfb
                  rw [if_neg (by simp)] at hfb
                  rw [parse_done_eq rfl] at hfb
                  dsimp only at hfb
                  rw [if_pos rfl] at hfb
                  cases hfb
                  rw [← hr', finishBuf_done rfl]
                | cons a as =>
                  rw [if_pos (show ((bb ++ a :: as).length : Int) > N from by
                    simp only [List.length_append, List.length_cons]
                    push_cast
                    omega)] at hfb
                  dsimp only at hfb
                  cases hfb
              · rw [if_neg hbe] at hr'
                rw [← hr']
                exact hfb
  case done =>
    subst hs
    rw [parse_done_eq rfl] at hp
    cases hp
    exact hfb

/-- A `parse` step that consumed `c > 0` bytes commutes with the
fully-buffered run: dropping the consumed bytes and continuing from the
updated request reaches the same successful result. -/
theorem runStep {r r' res : Request} {d rest : List Char} {c : Nat}
    (hp : r.parse d = .ok (c, r')) (hc : 0 < c)
    (hfb : finishBuf r (d ++ rest) = .ok res) :
    finishBuf r' (d.drop c ++ rest) = .ok res := by
  have hcle := parse_le hp
  obtain ⟨rl, st, hh, bb⟩ := r
  cases hs : st
  case initialized =>
    subst hs
    have hext := parse_ext rest (by simp) hp hc
    rw [finishBuf_eq, if_neg (by simp), hext] at hfb
    dsimp only at hfb
    rw [if_pos hc, List.drop_append_of_le_length hcle] at hfb
    exact hfb
  case parsingHeaders =>
    subst hs
    have hext := parse_ext rest (by simp) hp hc
    rw [finishBuf_eq, if_neg (by simp), hext] at hfb
    dsimp only at hfb
    rw [if_pos hc, List.drop_append_of_le_length hcle] at hfb
    exact hfb
  case done =>
    subst hs
    rw [parse_done_eq rfl] at hp
    cases hp
    omega
  case parsingBody =>
    subst hs
    rw [parse_pb rfl] at hp
    by_cases hv : Headers.Get hh ("Content-Length".data) = []
    · rw [if_pos hv] at hp
      simp only [GoResult.ok.injEq, Prod.mk.injEq] at hp
      obtain ⟨hcd, hr'⟩ := hp
      rw [finishBuf_eq, if_neg (by simp), parse_pb rfl, if_pos hv] at hfb
      dsimp only at hfb
      rw [if_pos (by simp only [List.length_append]; omega)] at hfb
      rw [List.drop_length, finishBuf_done rfl] at hfb
      cases hfb
      rw [← hr']
      subst hcd
      rw [List.drop_length, List.nil_append, finishBuf_done rfl]
    · rw [if_neg hv] at hp
      cases ha : atoiChars (Headers.Get hh ("Content-Length".data)) with
      | none => rw [ha] at hp; dsimp only at hp; cases hp
      | some N =>
        rw [ha] at hp
        dsimp only at hp
        by_cases hN : N = 0
        · rw [if_pos hN] at hp
          simp only [GoResult.ok.injEq, Prod.mk.injEq] at hp
          obtain ⟨hcd, hr'⟩ := hp
          rw [finishBuf_eq, if_neg (by simp), parse_pb rfl, if_neg hv, ha] at hfb
          dsimp only at hfb
          rw [if_pos hN] at hfb
          dsimp only at hfb
          rw [if_pos (by simp only [List.length_append]; omega)] at hfb
          rw [List.drop_length, finishBuf_done rfl] at hfb
          cases hfb
          rw [← hr']
          subst hcd
          rw [List.drop_length, List.nil_append, finishBuf_done rfl]
        · rw [if_neg hN] at hp
          split at hp
          · cases hp
          · rename_i hguard
            split at hp
            · cases hp
            · rename_i hover
              simp only [GoResult.ok.injEq, Prod.mk.injEq] at hp
              obtain ⟨hcd, hr'⟩ := hp
              subst hcd
              rw [List.drop_length, List.nil_append]
              have hguard2 : ¬(bb ++ d = [] ∧ N < 0) := by
                rintro ⟨h1, _⟩
                have hlen := congrArg List.length h1
                simp only [List.length_append, List.length_nil] at hlen
                omega
              rw [finishBuf_eq, if_neg (by simp), parse_pb rfl, if_neg hv, ha] at hfb
              dsimp only at hfb
              rw [if_neg hN, if_neg hguard, ← List.append_assoc] at hfb
              by_cases hov2 : (((bb ++ d) ++ rest).length : Int) > N
              · rw [if_pos hov2] at hfb
                dsimp only at hfb
                cases hfb
              · rw [if_neg hov2] at hfb
                dsimp only at hfb
                by_cases hbe : ((bb ++ d).length : Int) = N
                · rw [if_pos hbe] at hr'
                  have hrest : rest = [] := by
                    simp only [List.length_append] at hov2 hbe hover ⊢
                    push_cast at hov2 hbe hover
                    cases rest with
                    | nil => rfl
                    | cons a as => exfalso; simp at hov2; omega
                  subst hrest
                  simp only [List.append_nil] at hfb hov2
                  rw [if_pos hc, List.drop_length, if_pos hbe, finishBuf_done rfl] at hfb
                  cases hfb
                  rw [← hr', finishBuf_done rfl]
                · rw [if_neg hbe] at hr'
                  rw [← hr']
                  rw [if_pos (by simp only [List.length_append]; omega), List.drop_length] at hfb
                  rw [finishBuf_eq, if_neg (by simp), parse_pb rfl, if_neg hv, ha]
                  dsimp only
                  rw [if_neg hN, if_neg hguard2, if_neg hov2]
                  dsimp only
                  cases rest with
                  | nil =>
                    exfalso
                    simp only [List.append_nil] at hfb hov2
                    rw [if_neg hbe] at hfb
                    rw [finishBuf_eq, if_neg (by simp),
                      @parse_pb ⟨rl, .parsingBody, hh, bb ++ d⟩ rfl [], if_neg hv, ha] at hfb
                    dsimp only at hfb
                    rw [if_neg hN, if_neg hguard2] at hfb
                    simp only [List.append_nil] at hfb
                    rw [if_neg hover] at hfb
                    dsimp only at hfb
                    rw [if_neg (by simp)] at hfb
                    rw [if_neg hbe] at hfb
                    rw [@parse_pb ⟨rl, .parsingBody, hh, bb ++ d⟩ rfl [], if_neg hv, ha] at hfb
                    dsimp only at hfb
                    rw [if_neg hN, if_neg hguard2] at hfb
                    simp only [List.append_nil] at hfb
                    rw [if_neg hover] at hfb
                    dsimp only at hfb
                    rw [if_neg hbe] at hfb
                    rw [if_neg (by simp)] at hfb
                    cases hfb
                  | cons a as =>
                    rw [if_pos (by simp), List.drop_length]
                    exact hfb

/-- Master simulation lemma: if parsing the whole stream from a full buffer
succeeds, then the reader loop succeeds with the same result under any
fragmentation schedule (given enough fuel, which `RequestFromReader` always
supplies). -/
theorem runF_ok_of_finishBuf : ∀ (fuel : Nat) {req : Request} {buf source : List Char}
    {sched : List Nat} {res : Request},
    buf.length + 2 * source.length < fuel →
    finishBuf req (buf ++ source) = .ok res →
    runF fuel req buf source sched = .ok res := by
  intro fuel
  induction fuel with
  | zero => intro req buf source sched res hf hfb; omega
  | succ fuel ih =>
    intro req buf source sched res hf hfb
    rw [runF]
    by_cases hd : req.state = ParserState.done
    · rw [if_pos hd]
      rw [finishBuf_eq, if_pos hd] at hfb
      exact hfb
    · rw [if_neg hd]
      cases hp : req.parse buf with
      | error e =>
        exfalso
        have hext := parse_err_ext source hp
        rw [finishBuf_eq, if_neg hd, hext] at hfb
        cases hfb
      | panic p =>
        exfalso
        have hext := parse_panic_ext source hp
        rw [finishBuf_eq, if_neg hd, hext] at hfb
        cases hfb
      | ok p =>
        obtain ⟨c, req'⟩ := p
        dsimp only
        by_cases hc : 0 < c
        · rw [if_pos hc]
          have hle := parse_le hp
          refine ih ?_ (runStep hp hc hfb)
          simp only [List.length_drop]
          omega
        · rw [if_neg hc]
          have hc0 : c = 0 := by omega
          subst hc0
          have hstep := runStep0 hp hfb
          cases source with
          | nil =>
            rw [List.append_nil] at hfb
            rw [finishBuf_eq, if_neg hd, hp] at hfb
            dsimp only at hfb
            rw [if_neg hc] at hfb
            dsimp only
            exact hfb
          | cons ch cs =>
            dsimp only
            refine ih ?_ ?_
            · simp only [List.length_append, List.length_take, List.length_drop]
              have hn1 : 1 ≤ max 1 (min (sched.headD (ch :: cs).length) (ch :: cs).length) :=
                le_max_left _ _
              have hn2 : max 1 (min (sched.headD (ch :: cs).length) (ch :: cs).length) ≤
                  (ch :: cs).length :=
                max_le (by simp) (min_le_right _ _)
              omega
            · rw [List.append_assoc, List.take_append_drop]
              exact hstep

/-- Whatever the schedule, a request the loop returns successfully has
reached the `Done` state. -/
theorem runF_ok_done : ∀ (fuel : Nat) {req : Request} {buf source : List Char}
    {sched : List Nat} {r : Request},
    runF fuel req buf source sched = .ok r → r.state = .done := by
  intro fuel
  induction fuel with
  | zero => intro req buf source sched r h; rw [runF] at h; cases h
  | succ fuel ih =>
    intro req buf source sched r h
    rw [runF] at h
    split at h
    · cases h; assumption
    · split at h
      · cases h
      · cases h
      · split at h
        · exact ih h
        · split at h
          · split at h
            · cases h
            · cases h
            · split at h
              · cases h; assumption
              · cases h
          · exact ih h

theorem getKey_setKey_same (h : Headers) (k v : List Char) :
    getKey (setKey h k v) k = some v := by
  induction h with
  | nil => simp [setKey, getKey]
  | cons p t ih =>
    obtain ⟨k', v'⟩ := p
    rw [setKey]
    by_cases hk : k' = k
    · rw [if_pos hk, getKey, if_pos rfl]
    · rw [if_neg hk, getKey, if_neg hk]
      exact ih

theorem getKey_setKey_other (h : Headers) (k v k' : List Char) (hne : k' ≠ k) :
    getKey (setKey h k v) k' = getKey h k' := by
  induction h with
  | nil =>
    rw [setKey]
    simp only [getKey]
    rw [if_neg (Ne.symm hne)]
  | cons p t ih =>
    obtain ⟨k'', v''⟩ := p
    rw [setKey]
    by_cases hk : k'' = k
    · subst hk
      simp only [if_pos rfl, getKey]
      rw [if_neg (Ne.symm hne), if_neg (Ne.symm hne)]
    · rw [if_neg hk]
      simp only [getKey]
      by_cases hk2 : k'' = k'
      · rw [if_pos hk2, if_pos hk2]
      · rw [if_neg hk2, if_neg hk2]
        exact ih

theorem hasPre_eq {p s : List Char} (h : hasPre p s = true) :
    s = p ++ s.drop p.length := by
  induction p generalizing s with
  | nil => simp
  | cons c cs ih =>
    cases s with
    | nil => simp [hasPre] at h
    | cons a as =>
      rw [hasPre, Bool.and_eq_true] at h
      obtain ⟨h1, h2⟩ := h
      have : c = a := by simpa using h1
      subst this
      simpa using ih h2

theorem HeadersParse_done_crlf {h : Headers} {d : List Char}
    (hd : (Headers.Parse h d).isDone = true) : crlfIdx d = some 0 := by
  unfold Headers.Parse at hd
  cases hc : crlfIdx d <;> rw [hc] at hd <;> dsimp only at hd
  · cases hd
  case some idx =>
    by_cases h0 : idx = 0
    · rw [h0]
    · rw [if_neg h0] at hd
      exfalso
      cases hci : charIdx ':' (d.take idx) <;> rw [hci] at hd <;> dsimp only at hd
      · cases hd
      · split at hd
        · cases hd
        · split at hd
          · cases hd
          · split at hd <;> cases hd

/-! ### Claim theorems -/

/-- C5: a CRLF-terminated header line (non-empty, so not the blank
section-terminating line) whose content has no colon, or whose name part
(before the first colon) has leading or trailing whitespace, or whose name
part contains a character outside the permitted token set, is rejected by
`Headers.Parse` with a malformed-header error and zero bytes consumed. -/
theorem C5_malformed_header_rejected (h : Headers) (data : List Char) (idx : Nat)
    (hcrlf : crlfIdx data = some idx) (h0 : idx ≠ 0)
    (hbad : charIdx ':' (data.take idx) = none ∨
      ∃ ci, charIdx ':' (data.take idx) = some ci ∧
        (trimSpace ((data.take idx).take ci) ≠ (data.take idx).take ci ∨
         ((data.take idx).take ci).all tokenChar = false)) :
    (Headers.Parse h data).err.isSome = true ∧ (Headers.Parse h data).consumed = 0 := by
  unfold Headers.Parse
  rw [hcrlf]
  dsimp only
  rw [if_neg h0]
  rcases hbad with hnone | ⟨ci, hci, hbad⟩
  · rw [hnone]
    exact ⟨rfl, rfl⟩
  · rw [hci]
    dsimp only
    rcases hbad with htrim | hall
    · rw [if_pos htrim]
      exact ⟨rfl, rfl⟩
    · by_cases htrim : trimSpace ((data.take idx).take ci) ≠ (data.take idx).take ci
      · rw [if_pos htrim]
        exact ⟨rfl, rfl⟩
      · rw [if_neg htrim]
        by_cases hsp : ((data.take idx).take ci).contains ' ' = true
        · rw [if_pos hsp]
          exact ⟨rfl, rfl⟩
        · rw [if_neg hsp, if_neg (by rw [hall]; simp)]
          exact ⟨rfl, rfl⟩

/-- C5 witness: `"Bad Header: x\r\n"` (space inside the name) is rejected with
an error and zero bytes consumed. -/
theorem C5_witness :
    (Headers.Parse [] ("Bad Header: x\r\n".data)).err.isSome = true ∧
    (Headers.Parse [] ("Bad Header: x\r\n".data)).consumed = 0 :=
  C5_malformed_header_rejected [] ("Bad Header: x\r\n".data) 13 (by decide) (by decide)
    (Or.inr ⟨10, by decide, Or.inr (by decide)⟩)

/-- C7: `WriteStatusLine` emits `HTTP/1.1 SP code SP reason CRLF` with
reason "OK"/"Bad Request"/"Internal Server Error"/"Request Timeout" for
200/400/500/408; every other code gets an empty reason and the emitted
line `HTTP/1.1 SP code SP CRLF` carries no reason token while remaining
well-formed. -/
theorem C7_write_status_line :
    WriteStatusLine 200 = "HTTP/1.1 200 OK\r\n".data ∧
    WriteStatusLine 400 = "HTTP/1.1 400 Bad Request\r\n".data ∧
    WriteStatusLine 500 = "HTTP/1.1 500 Internal Server Error\r\n".data ∧
    WriteStatusLine 408 = "HTTP/1.1 408 Request Timeout\r\n".data ∧
    (∀ code : Int, code ≠ 200 → code ≠ 400 → code ≠ 500 → code ≠ 408 →
      statusReason code = [] ∧
      WriteStatusLine code = "HTTP/1.1 ".data ++ intChars code ++ " \r\n".data) := by
  refine ⟨by decide, by decide, by decide, by decide, ?_⟩
  intro code h200 h400 h500 h408
  have hr : statusReason code = [] := by
    unfold statusReason
    rw [if_neg h200, if_neg h400, if_neg h500, if_neg h408]
  refine ⟨hr, ?_⟩
  unfold WriteStatusLine
  rw [hr]
  simp

/-- C7 witness: code 204 gets an empty reason and the bare status line. -/
theorem C7_witness :
    (statusReason 204 = [] ∧
      WriteStatusLine 204 = "HTTP/1.1 ".data ++ intChars 204 ++ " \r\n".data) ∧
    WriteStatusLine 204 = "HTTP/1.1 204 \r\n".data :=
  ⟨C7_write_status_line.2.2.2.2 204 (by decide) (by decide) (by decide) (by decide),
   by decide⟩

/-- C10 (code bug): the claim — and spec §7, which lists an invalid
`Content-Length` among the malformed-input errors surfaced to the caller —
says a negative value yields a terminal error rather than a crash.  The
program instead reaches `make([]byte, 0, contentLength)` with the negative
capacity on the first body-state call (`Body` still nil), which panics at
run time (`makeslice: cap out of range`); nothing in the repository
recovers, so the process crashes.  Evaluating the model at the failing
input shows the panic on the body-state parse call and on the whole
reader run. -/
theorem C10_negative_content_length_panics :
    (⟨⟨[], [], []⟩, .parsingBody, [("content-length".data, "-5".data)], []⟩ :
        Request).parse ("hi".data) = .panic "makeslice: cap out of range" ∧
    RequestFromReader ("POST /x HTTP/1.1\r\nContent-Length: -5\r\n\r\nhi".data) [100] =
      .panic "makeslice: cap out of range" := by
  constructor <;> decide

/-- C8: when the source is exhausted (EOF with nothing more to read), the
loop makes one final parse attempt on the remaining buffered bytes: if the
parser is then `Done` the completed request is returned, otherwise the
incomplete-request error is raised; moreover a successfully returned request
always has state `Done`, so an unterminated request is never silently
accepted. -/
theorem C8_eof_final_attempt :
    (∀ (R : List Char) (sched : List Nat) (r : Request),
      RequestFromReader R sched = .ok r → r.state = .done) ∧
    (∀ (fuel : Nat) (req req' req2 : Request) (buf : List Char) (sched : List Nat)
       (c2 : Nat),
      req.state ≠ .done →
      req.parse buf = .ok (0, req') →
      req'.parse buf = .ok (c2, req2) →
      runF (fuel + 1) req buf [] sched =
        (if req2.state = .done then .ok req2
         else .error "incomplete request after EOF: need more data")) := by
  constructor
  · intro R sched r h
    exact runF_ok_done _ h
  · intro fuel req req' req2 buf sched c2 hd hp hp2
    rw [runF, if_neg hd, hp]
    dsimp only
    rw [if_neg (by omega), hp2]

/-- C8 witness: a buffered request line with no CRLF and an exhausted source
is rejected as incomplete after the final parse attempt. -/
theorem C8_witness :
    runF 1 initialRequest ("GET / HT".data) [] [] =
      .error "incomplete request after EOF: need more data" :=
  (C8_eof_final_attempt.2 0 initialRequest initialRequest initialRequest
      ("GET / HT".data) [] 0 (by decide) (by decide) (by decide)).trans (by decide)

/-- C2 counterexample: the request line `GET / 1.1` has third token `1.1`,
which is not `HTTP/1.1`, yet CRLF-terminated request-line parsing accepts it
(the `HTTP/` strip is conditional, so a bare `1.1` token also reaches the
`1.1` comparison). -/
theorem C2_counterexample :
    parseRequestLine ("GET / 1.1\r\n".data) =
      .ok (some (⟨"1.1".data, "/".data, "GET".data⟩, 11)) ∧
    splitN ' ' 3 ("GET / 1.1".data) = ["GET".data, "/".data, "1.1".data] ∧
    "1.1".data ≠ "HTTP/1.1".data := by
  refine ⟨by decide, by decide, by decide⟩

/-- C2 (amended): request-line parsing fails whenever the third
space-separated token, after optionally stripping an `HTTP/` prefix, differs
from `1.1`; consequently exactly the two literal tokens `HTTP/1.1` and `1.1`
are accepted as the version, and the stored version is `1.1`. -/
theorem C2_version_token_amended :
    (∀ (line m t v : List Char), splitN ' ' 3 line = [m, t, v] →
      stripPre ("HTTP/".data) v ≠ "1.1".data →
      ∃ e, requestLineFromString line = .error e) ∧
    (∀ (line : List Char) (rl : RequestLine), requestLineFromString line = .ok rl →
      ∃ m t v, splitN ' ' 3 line = [m, t, v] ∧
        (v = "HTTP/1.1".data ∨ v = "1.1".data) ∧ rl.httpVersion = "1.1".data) := by
  constructor
  · intro line m t v hsp hne
    have hnil : line ≠ [] := by
      intro hl
      subst hl
      simp [splitN, splitFirst] at hsp
    unfold requestLineFromString
    rw [if_neg hnil, hsp]
    dsimp only
    by_cases hm : m.all (fun ch => 'A' ≤ ch && ch ≤ 'Z') = true
    · rw [if_pos hm]
      by_cases ht : hasPre ['/'] t = true
      · rw [if_pos ht, if_neg hne]
        exact ⟨_, rfl⟩
      · rw [if_neg ht]
        exact ⟨_, rfl⟩
    · rw [if_neg hm]
      exact ⟨_, rfl⟩
  · intro line rl h
    unfold requestLineFromString at h
    split at h
    · cases h
    · split at h
      case h_2 => cases h
      case h_1 m t v heq =>
        split at h
        · split at h
          · dsimp only at h
            split at h
            case isTrue hv =>
              cases h
              refine ⟨m, t, v, heq, ?_, hv⟩
              unfold stripPre at hv
              by_cases hpre : hasPre ("HTTP/".data) v = true
              · rw [if_pos hpre] at hv
                left
                rw [hasPre_eq hpre, hv]
                decide
              · rw [if_neg hpre] at hv
                right
                exact hv
            case isFalse => cases h
          · cases h
        · cases h

/-- C2 witness for the amended claim: the token `HTTP/2.0` is rejected. -/
theorem C2_witness :
    ∃ e, requestLineFromString ("GET / HTTP/2.0".data) = .error e :=
  C2_version_token_amended.1 ("GET / HTTP/2.0".data) ("GET".data) ("/".data)
    ("HTTP/2.0".data) (by decide) (by decide)

/-- C3: in the `ParsingBody` state with a positive declared `Content-Length`
`N`, a parse call appends all available bytes to the body and reports that
many consumed; if the accumulated body would exceed `N` it returns a terminal
body-overrun error; if it reaches exactly `N` the state becomes `Done` with
the body holding exactly those `N` bytes; otherwise the parser stays in
`ParsingBody`; and a `Content-Length` value that is not a well-formed integer
is a terminal error. -/
theorem C3_body_accumulation :
    (∀ (r : Request) (data : List Char) (N : Int),
      r.state = .parsingBody →
      atoiChars (r.headers.Get ("Content-Length".data)) = some N → 0 < N →
      (((r.body.length + data.length : Int) > N → ∃ e, r.parse data = .error e) ∧
       ((r.body.length + data.length : Int) ≤ N →
          r.parse data = .ok (data.length,
            { r with body := r.body ++ data,
                     state := if (r.body.length + data.length : Int) = N then .done
                              else .parsingBody })))) ∧
    (∀ (r : Request) (data : List Char),
      r.state = .parsingBody →
      r.headers.Get ("Content-Length".data) ≠ [] →
      atoiChars (r.headers.Get ("Content-Length".data)) = none →
      ∃ e, r.parse data = .error e) := by
  constructor
  · intro r data N hs hCL hpos
    have hv : r.headers.Get ("Content-Length".data) ≠ [] := by
      intro hveq
      rw [hveq] at hCL
      simp [atoiChars] at hCL
    rw [parse_pb hs, if_neg hv, hCL]
    dsimp only
    rw [if_neg (by omega)]
    rw [if_neg (show ¬(r.body = [] ∧ N < 0) from by rintro ⟨_, h2⟩; omega)]
    constructor
    · intro hover
      rw [if_pos (by simp only [List.length_append, Nat.cast_add]; omega)]
      exact ⟨_, rfl⟩
    · intro hle
      rw [if_neg (by simp only [List.length_append, Nat.cast_add]; omega)]
      simp only [List.length_append, Nat.cast_add]
  · intro r data hs hv hnone
    rw [parse_pb hs, if_neg hv, hnone]
    exact ⟨_, rfl⟩

/-- C3 witness: with `Content-Length: 5` and empty body so far, parsing
`"abc"` appends all three bytes, reports 3 consumed and stays in
`ParsingBody`. -/
theorem C3_witness :
    (⟨⟨[], [], []⟩, .parsingBody, [("content-length".data, "5".data)], []⟩ :
        Request).parse ("abc".data) =
      .ok (3, ⟨⟨[], [], []⟩, .parsingBody,
        [("content-length".data, "5".data)], "abc".data⟩) :=
  ((C3_body_accumulation.1
      ⟨⟨[], [], []⟩, .parsingBody, [("content-length".data, "5".data)], []⟩
      ("abc".data) 5 rfl (by decide) (by decide)).2 (by decide)).trans (by decide)

/-- C4: every accepted header name is stored under its lowercased form; when
the lowercased name is already present with a non-empty value the entry
becomes `old ++ ", " ++ new` instead of being overwritten, and all other
entries are untouched; in particular the two lines `Host: localhost:8000`
then `Host: localhost:42069` leave the single entry
`headers["host"] = "localhost:8000, localhost:42069"`. -/
theorem C4_lowercase_and_combine :
    (∀ (h : Headers) (data : List Char) (idx ci : Nat),
      crlfIdx data = some idx → idx ≠ 0 →
      charIdx ':' (data.take idx) = some ci →
      trimSpace ((data.take idx).take ci) = (data.take idx).take ci →
      ((data.take idx).take ci).contains ' ' = false →
      ((data.take idx).take ci).all tokenChar = true →
      ∃ h', Headers.Parse h data = ⟨idx + 2, false, none, h'⟩ ∧
        getKey h' (toLowerChars ((data.take idx).take ci)) = some
          (match getKey h (toLowerChars ((data.take idx).take ci)) with
           | some prev =>
             if prev = [] then trimSpace ((data.take idx).drop (ci + 1))
             else prev ++ [',', ' '] ++ trimSpace ((data.take idx).drop (ci + 1))
           | none => trimSpace ((data.take idx).drop (ci + 1))) ∧
        (∀ k, k ≠ toLowerChars ((data.take idx).take ci) →
          getKey h' k = getKey h k)) ∧
    getKey (Headers.Parse
        (Headers.Parse [] ("Host: localhost:8000\r\n".data)).headers
        ("Host: localhost:42069\r\n".data)).headers ("host".data) =
      some ("localhost:8000, localhost:42069".data) := by
  constructor
  · intro h data idx ci hcrlf h0 hci htrim hsp hall
    unfold Headers.Parse
    rw [hcrlf]
    dsimp only
    rw [if_neg h0, hci]
    dsimp only
    rw [if_neg (by rw [htrim]; exact fun hcon => hcon rfl)]
    rw [if_neg (by rw [hsp]; simp), if_pos hall]
    refine ⟨_, rfl, ?_, ?_⟩
    · cases hg : getKey h (toLowerChars ((data.take idx).take ci)) with
      | none =>
        dsimp only
        exact getKey_setKey_same _ _ _
      | some prev =>
        dsimp only
        by_cases hprev : prev = []
        · rw [if_pos hprev, if_neg (fun hcon => hcon hprev)]
          exact getKey_setKey_same _ _ _
        · rw [if_neg hprev, if_pos hprev]
          exact getKey_setKey_same _ _ _
    · intro k hk
      cases hg : getKey h (toLowerChars ((data.take idx).take ci)) with
      | none =>
        dsimp only
        exact getKey_setKey_other _ _ _ _ hk
      | some prev =>
        dsimp only
        by_cases hprev : prev ≠ []
        · rw [if_pos hprev]
          exact getKey_setKey_other _ _ _ _ hk
        · rw [if_neg hprev]
          exact getKey_setKey_other _ _ _ _ hk
  · decide

/-- C4 witness for the general part: `Host: x` is stored as `host = x`. -/
theorem C4_witness :
    ∃ h', Headers.Parse [] ("Host: x\r\n".data) = ⟨9, false, none, h'⟩ ∧
      getKey h' (toLowerChars (("Host: x\r\n".data.take 7).take 4)) =
        some (trimSpace (("Host: x\r\n".data.take 7).drop 5)) := by
  obtain ⟨h', h1, h2, h3⟩ := C4_lowercase_and_combine.1 [] ("Host: x\r\n".data) 7 4
    (by decide) (by decide) (by decide) (by decide) (by decide) (by decide)
  exact ⟨h', h1, h2⟩

/-- C6: across any sequence of parse calls the state only advances along
`Initialized → ParsingHeaders → ParsingBody → Done`: a single call never
moves backwards and never skips a state; `ParsingBody` is entered only from
`ParsingHeaders` via the blank line (CRLF at offset 0, 2 bytes consumed);
once `Done`, every call returns zero consumed, no error and an unchanged
request; and over any chunk sequence the state is monotone. -/
theorem C6_state_machine :
    (∀ (r : Request) (data : List Char) (n : Nat) (r' : Request),
      r.parse data = .ok (n, r') →
      stateIdx r.state ≤ stateIdx r'.state ∧
      stateIdx r'.state ≤ stateIdx r.state + 1) ∧
    (∀ (r : Request) (data : List Char) (n : Nat) (r' : Request),
      r.parse data = .ok (n, r') → r'.state = .parsingBody →
      r.state = .parsingBody ∨
        (r.state = .parsingHeaders ∧ crlfIdx data = some 0 ∧ n = 2)) ∧
    (∀ (r : Request) (data : List Char), r.state = .done → r.parse data = .ok (0, r)) ∧
    (∀ (r r' : Request) (chunks : List (List Char)),
      parseMany r chunks = .ok r' → stateIdx r.state ≤ stateIdx r'.state) := by
  have step : ∀ (r : Request) (data : List Char) (n : Nat) (r' : Request),
      r.parse data = .ok (n, r') →
      stateIdx r.state ≤ stateIdx r'.state ∧
      stateIdx r'.state ≤ stateIdx r.state + 1 := by
    intro r data n r' hp
    cases hs : r.state
    · rw [parse_init hs] at hp
      split at hp
      · cases hp
      · cases hp
        simp [stateIdx, hs]
      · cases hp
        simp [stateIdx, hs]
    · rw [parse_ph hs] at hp
      split at hp
      · cases hp
      · split at hp <;> (cases hp; simp [stateIdx, hs])
    · rw [parse_pb hs] at hp
      split at hp
      · cases hp
        simp [stateIdx, hs]
      · split at hp
        · cases hp
        · split at hp
          · cases hp
            simp [stateIdx, hs]
          · split at hp
            · cases hp
            · split at hp
              · cases hp
              · cases hp
                dsimp only
                constructor <;> (split <;> simp [stateIdx, hs])
    · rw [parse_done_eq hs] at hp
      cases hp
      simp [stateIdx, hs]
  refine ⟨step, ?_, ?_, ?_⟩
  · intro r data n r' hp hps
    cases hs : r.state
    · rw [parse_init hs] at hp
      split at hp
      · cases hp
      · cases hp
        rw [hs] at hps
        cases hps
      · cases hp
        cases hps
    · rw [parse_ph hs] at hp
      split at hp
      · cases hp
      · split at hp
        case isTrue hdone =>
          cases hp
          right
          refine ⟨rfl, HeadersParse_done_crlf hdone, ?_⟩
          rw [HeadersParse_done_two hdone]
        case isFalse =>
          cases hp
          dsimp only at hps
          rw [hs] at hps
          cases hps
    · exact Or.inl rfl
    · rw [parse_done_eq hs] at hp
      cases hp
      rw [hs] at hps
      cases hps
  · intro r data hs
    exact parse_done_eq hs data
  · intro r r' chunks
    induction chunks generalizing r with
    | nil =>
      intro hp
      rw [parseMany] at hp
      cases hp
      exact le_refl _
    | cons d ds ih =>
      intro hp
      rw [parseMany] at hp
      cases hq : r.parse d with
      | error e => rw [hq] at hp; dsimp only at hp; cases hp
      | panic p => rw [hq] at hp; dsimp only at hp; cases hp
      | ok p =>
        rw [hq] at hp
        dsimp only at hp
        obtain ⟨n, r1⟩ := p
        have h1 := (step r d n r1 hq).1
        have h2 := ih r1 hp
        omega

/-- C6 witness: a `Done` request consumes nothing and is returned unchanged. -/
theorem C6_witness :
    (⟨⟨[], [], []⟩, .done, [], []⟩ : Request).parse ("xyz".data) =
      .ok (0, ⟨⟨[], [], []⟩, .done, [], []⟩) :=
  C6_state_machine.2.2.1 ⟨⟨[], [], []⟩, .done, [], []⟩ ("xyz".data) rfl

/-- C1: fragmentation independence.  For any byte sequence `R` that the
parser accepts when the whole stream is buffered (`finishBuf` — the
embedding's notion of a valid request byte sequence), running
`RequestFromReader` with ANY schedule of non-empty read fragments yields
exactly the result of the single-contiguous-read schedule `[R.length]`:
the same `Request`, hence the same request line, headers and body. -/
theorem C1_fragmentation_independence (R : List Char) (r : Request) (sched : List Nat)
    (hvalid : finishBuf initialRequest R = .ok r) :
    RequestFromReader R sched = RequestFromReader R [R.length] ∧
    RequestFromReader R sched = .ok r := by
  have key : ∀ sc : List Nat, RequestFromReader R sc = .ok r := by
    intro sc
    unfold RequestFromReader
    refine runF_ok_of_finishBuf _ ?_ ?_
    · simp only [List.length_nil]
      omega
    · simpa using hvalid
  exact ⟨(key sched).trans (key [R.length]).symm, key sched⟩

/-- C1 witness: a complete GET request fed in fragments of 1, 2 and 3 bytes
parses to the same request as a single contiguous read. -/
theorem C1_witness :
    RequestFromReader ("GET / HTTP/1.1\r\nHost: x\r\n\r\n".data) [1, 2, 3] =
      RequestFromReader ("GET / HTTP/1.1\r\nHost: x\r\n\r\n".data)
        [("GET / HTTP/1.1\r\nHost: x\r\n\r\n".data).length] ∧
    RequestFromReader ("GET / HTTP/1.1\r\nHost: x\r\n\r\n".data) [1, 2, 3] =
      .ok ⟨⟨"1.1".data, "/".data, "GET".data⟩, .done, [("host".data, "x".data)], []⟩ :=
  C1_fragmentation_independence ("GET / HTTP/1.1\r\nHost: x\r\n\r\n".data)
    ⟨⟨"1.1".data, "/".data, "GET".data⟩, .done, [("host".data, "x".data)], []⟩
    [1, 2, 3] (by decide)

end HttpFromTcp
